import Mathlib

/-!
Verification of the mokujin YAGO resolution engine (`tools/yago.py`).

The development shallowly embeds the resolution core:

* node classification (`YagoEntry.is_class`) and the word tokenizer
  (`YagoEntry.word_re.findall`),
* the Part Index / Label Index lookups (`idx_map_part`, `kvs_map_lemma`),
* the compound resolvers (`find_compound`, `find_compound2`,
  `idx_map_compound`, `expand_instances`),
* the taxonomy ancestor traversal (`find_all_classes`),
* the index builders (`create_kvs_from_sql`, `create_idx_from_sql`,
  `kvs_insert_entryset`, `index_part`) with their batched-write behaviour.

Stores (LevelDB) are modelled as lists of puts replayed left to right
(later puts overwrite earlier ones); absent keys are `none`.  The SQL
row tables are modelled as lists of pairs; `ORDER BY` is modelled by an
insertion sort on an executable lexicographic string order.  Python
functions that can raise (`idx_map_compound` on an empty compound, `min`
over an empty set) return `none` / `Except.error ()` at exactly the
inputs where the Python code raises.
-/

/-! ### String utilities -/

/-- Character-list test that the first list starts the second, used to
express `str.startswith` so that it evaluates in the kernel. -/
def leadsChars : List Char → List Char → Bool
  | [], _ => true
  | _ :: _, [] => false
  | c :: cs, d :: ds => if c = d then leadsChars cs ds else false

/-- Embedding of `YagoEntry.is_class`: a node is a class iff its
identifier starts with `<wordnet`. -/
def is_class (node : String) : Bool :=
  leadsChars "<wordnet".toList node.toList

/-- Number of underscore-delimited segments of a node identifier,
`len(node.split("_"))` in the source: underscore count plus one. -/
def segCount (node : String) : Nat :=
  (node.toList.filter (fun c => decide (c = '_'))).length + 1

/-- Executable lexicographic order on strings (by code points), used to
model SQL `ORDER BY` on text columns and Python's iteration over sorted
keys.  `String.≤` itself does not reduce in the kernel, so we compare
the underlying character lists. -/
def strLeChars : List Char → List Char → Bool
  | [], _ => true
  | _ :: _, [] => false
  | c :: cs, d :: ds =>
    if c.toNat < d.toNat then true
    else if d.toNat < c.toNat then false
    else strLeChars cs ds

def strLe (a b : String) : Prop :=
  strLeChars a.toList b.toList = true

instance : DecidableRel strLe := fun a b => by
  unfold strLe; infer_instance

lemma strLeChars_total : ∀ xs ys, strLeChars xs ys = true ∨ strLeChars ys xs = true := by
  intro xs
  induction xs with
  | nil => intro ys; left; rfl
  | cons c cs ih =>
    intro ys
    cases ys with
    | nil => right; rfl
    | cons d ds =>
      by_cases h1 : c.toNat < d.toNat
      · left; simp [strLeChars, h1]
      · by_cases h2 : d.toNat < c.toNat
        · right; simp [strLeChars, h2]
        · rcases ih ds with h | h
          · left; simp [strLeChars, h1, h2, h]
          · right; simp [strLeChars, h1, h2, h]

lemma strLeChars_trans : ∀ xs ys zs, strLeChars xs ys = true → strLeChars ys zs = true →
    strLeChars xs zs = true := by
  intro xs
  induction xs with
  | nil => intro ys zs _ _; rfl
  | cons c cs ih =>
    intro ys zs hxy hyz
    cases ys with
    | nil => simp [strLeChars] at hxy
    | cons d ds =>
      cases zs with
      | nil => simp [strLeChars] at hyz
      | cons e es =>
        simp only [strLeChars] at hxy hyz ⊢
        by_cases hcd : c.toNat < d.toNat
        · by_cases hde : d.toNat < e.toNat
          · have : c.toNat < e.toNat := lt_trans hcd hde
            simp [this]
          · by_cases hed : e.toNat < d.toNat
            · simp [hde, hed] at hyz
            · have hde2 : d.toNat = e.toNat := by omega
              have : c.toNat < e.toNat := hde2 ▸ hcd
              simp [this]
        · by_cases hdc : d.toNat < c.toNat
          · simp [hcd, hdc] at hxy
          · have hcd2 : c.toNat = d.toNat := by omega
            by_cases hde : d.toNat < e.toNat
            · have : c.toNat < e.toNat := hcd2 ▸ hde
              simp [this]
            · by_cases hed : e.toNat < d.toNat
              · simp [hde, hed] at hyz
              · have hde2 : d.toNat = e.toNat := by omega
                have hce : c.toNat = e.toNat := hcd2.trans hde2
                have h1 : ¬ c.toNat < e.toNat := by omega
                have h2 : ¬ e.toNat < c.toNat := by omega
                simp [hcd, hdc, h1, h2] at hxy ⊢
                exact ih ds es hxy (by simpa [hde, hed] using hyz)

lemma strLeChars_antisymm : ∀ xs ys, strLeChars xs ys = true → strLeChars ys xs = true →
    xs = ys := by
  intro xs
  induction xs with
  | nil =>
    intro ys _ hyx
    cases ys with
    | nil => rfl
    | cons d ds => simp [strLeChars] at hyx
  | cons c cs ih =>
    intro ys hxy hyx
    cases ys with
    | nil => simp [strLeChars] at hxy
    | cons d ds =>
      simp only [strLeChars] at hxy hyx
      by_cases hcd : c.toNat < d.toNat
      · have : ¬ d.toNat < c.toNat := by omega
        simp [hcd, this] at hyx
      · by_cases hdc : d.toNat < c.toNat
        · simp [hcd, hdc] at hxy
        · have hEq : c.toNat = d.toNat := by omega
          have hc : c = d := by
            have h2 := hEq
            unfold Char.toNat at h2
            exact Char.eq_of_val_eq (UInt32.toNat.inj h2)
          subst hc
          simp [hcd] at hxy hyx
          rw [ih ds hxy hyx]

instance : IsTotal String strLe := ⟨fun a b => strLeChars_total a.toList b.toList⟩

instance : IsTrans String strLe :=
  ⟨fun a b c hab hbc => strLeChars_trans a.toList b.toList c.toList hab hbc⟩

lemma string_toList_inj {a b : String} (h : a.toList = b.toList) : a = b := by
  cases a; cases b
  simp only [String.toList] at h
  simp [h]

instance : IsAntisymm String strLe :=
  ⟨fun a b hab hba => string_toList_inj (strLeChars_antisymm a.toList b.toList hab hba)⟩

instance {e a : Type} [DecidableEq e] [DecidableEq a] : DecidableEq (Except e a) :=
  fun x y =>
  match x, y with
  | Except.error e1, Except.error e2 =>
    if h : e1 = e2 then isTrue (by rw [h])
    else isFalse (by intro hc; cases hc; exact h rfl)
  | Except.error _, Except.ok _ => isFalse (by intro hc; cases hc)
  | Except.ok _, Except.error _ => isFalse (by intro hc; cases hc)
  | Except.ok a1, Except.ok a2 =>
    if h : a1 = a2 then isTrue (by rw [h])
    else isFalse (by intro hc; cases hc; exact h rfl)

/-- Embedding of the tokenizer `YagoEntry.word_re.findall`: the maximal
runs of alphabetic characters of a label (the regex `\b[^\W\d_]+\b`
keeps word characters that are neither digits nor underscores). -/
def labelParts (s : String) : List String :=
  ((s.toList.foldr
      (fun c acc =>
        if c.isAlpha then (c :: acc.headD []) :: acc.tail else [] :: acc)
      []).filter (fun r => decide (r ≠ []))).map List.asString

/-! ### Taxonomy traversal: `YagoDict.find_all_classes`

The hierarchy table `yago_hrch` is a list of (child, parent) edges;
`SELECT parent FROM yago_hrch WHERE child=?` is `hierarchyParents`.
The `while` loop of `find_all_classes` carries the state
(`classes`, `new_classes`); it exits only when `new_classes` is empty.
The loop is given explicit fuel: `none` means the fuel ran out, i.e.
the Python loop has not terminated within that many iterations. -/

def hierarchyParents (edges : List (String × String)) (child : String) : List String :=
  (edges.filter (fun e => decide (e.1 = child))).map (fun e => e.2)

def facStep (edges : List (String × String)) (st : List String × List String) :
    List String × List String :=
  (st.1 ++ st.2, st.2.flatMap (fun ch => hierarchyParents edges ch))

def facLoop (edges : List (String × String)) : Nat → List String × List String →
    Option (List String)
  | fuel, st =>
    if st.2 = [] then some st.1
    else
      match fuel with
      | 0 => none
      | n + 1 => facLoop edges n (facStep edges st)

/-- Embedding of `YagoDict.find_all_classes(child)`: start from
`classes = [child]`, `new_classes = parents(child)`, loop until
`new_classes` is empty, return the set of accumulated classes.
`none` means the loop did not terminate within `fuel` iterations. -/
def find_all_classes (edges : List (String × String)) (child : String) (fuel : Nat) :
    Option (Finset String) :=
  (facLoop edges fuel ([child], hierarchyParents edges child)).map List.toFinset

/-- The two-node hierarchy cycle A→B→A. -/
def cycleEdges : List (String × String) := [("A", "B"), ("B", "A")]

lemma facStep_cycle (st : List String × List String)
    (h : st.2 = ["A"] ∨ st.2 = ["B"]) :
    (facStep cycleEdges st).2 = ["A"] ∨ (facStep cycleEdges st).2 = ["B"] := by
  rcases h with h | h
  · right
    show (st.2.flatMap (fun ch => hierarchyParents cycleEdges ch)) = ["B"]
    rw [h]; decide
  · left
    show (st.2.flatMap (fun ch => hierarchyParents cycleEdges ch)) = ["A"]
    rw [h]; decide

lemma facLoop_cycle_none : ∀ fuel (st : List String × List String),
    st.2 = ["A"] ∨ st.2 = ["B"] → facLoop cycleEdges fuel st = none := by
  intro fuel
  induction fuel with
  | zero =>
    intro st h
    have h2 : ¬ st.2 = [] := by rcases h with h | h <;> simp [h]
    simp [facLoop, h2]
  | succ n ih =>
    intro st h
    have h2 : ¬ st.2 = [] := by rcases h with h | h <;> simp [h]
    rw [facLoop]
    simp only [h2, if_false]
    exact ih _ (facStep_cycle st h)

/-- C1: the claim says `find_all_classes` terminates on cyclic
hierarchies by tracking visited nodes and, on the two-node cycle
A→B→A, returns exactly {A, B}.  The code has no visited tracking: on
that cycle the worklist alternates between ["B"] and ["A"] and is never
empty, so the loop never exits — no amount of fuel makes the call
return.  The spec's required behaviour (termination, result {A, B}) is
therefore violated by the code. -/
theorem find_all_classes_cycle_diverges :
    ∀ fuel : Nat, find_all_classes cycleEdges "A" fuel = none := by
  intro fuel
  have h0 : hierarchyParents cycleEdges "A" = ["B"] := by decide
  unfold find_all_classes
  rw [h0, facLoop_cycle_none fuel (["A"], ["B"]) (Or.inr rfl)]
  rfl

/-! ### Part Index lookups

The built Part Index (a LevelDB store) is abstracted as a function
`String → Option (Finset String)`: `some s` is a stored node set,
`none` a missing key (`KeyError` in `idx_map_part`). -/

/-- Embedding of `YagoDict.idx_map_part`: `Get` returning `None` on a
missing key. -/
def idx_map_part (idx : String → Option (Finset String)) (part : String) :
    Option (Finset String) :=
  idx part

/-- The loop of `idx_map_compound`: walk the per-part lookups, keep
intersecting; as soon as a part was absent (`None`), return the empty
set. -/
def imcLoop : Finset String → List (Option (Finset String)) → Finset String
  | inter, [] => inter
  | inter, os :: rest =>
    match os with
    | some s => imcLoop (inter ∩ s) rest
    | none => ∅

/-- Embedding of `YagoDict.idx_map_compound`.  The Python code starts
from `node_sets[0]`, which raises `IndexError` on an empty compound:
that failure is modelled by `none`.  On a non-empty compound the result
is always `some _`. -/
def idx_map_compound (idx : String → Option (Finset String)) (compound : List String) :
    Option (Finset String) :=
  match compound.map (fun part => idx_map_part idx part) with
  | [] => none
  | os :: rest => some (imcLoop (os.getD ∅) (os :: rest))

/-- Embedding of `YagoDict.expand_instances` over the taxonomy map
`txn` (`find_class`, i.e. `SELECT cls FROM yago_taxn WHERE ins=?`,
`none` when no row matches): classes are kept; instances are replaced
by their direct classes, or dropped when they have none. -/
def expand_instances (txn : String → Option (Finset String)) (node_set : Finset String) :
    Finset String :=
  node_set.biUnion (fun node => if is_class node then {node} else (txn node).getD ∅)

/-- Fold intersection starting from the head, as in
`intersection = sets[0]; for i in 1..: intersection &= sets[i]`. -/
def intersectAll : List (Finset String) → Finset String
  | [] => ∅
  | s :: rest => rest.foldl (fun a b => a ∩ b) s

/-- Embedding of `YagoDict.find_compound` (Strategy A). -/
def find_compound (idx txn : String → Option (Finset String)) (lemmas : List String) :
    Option (Finset String) :=
  if lemmas = [] then none
  else
    let initial := lemmas.map (fun w => (idx_map_compound idx [w]).getD ∅)
    let filtered := initial.filter (fun s => decide (s ≠ ∅))
    if filtered = [] then none
    else some (intersectAll (filtered.map (fun s => expand_instances txn s)))

lemma mem_foldl_inter (rest : List (Finset String)) :
    ∀ (acc : Finset String) (x : String),
      x ∈ rest.foldl (fun a b => a ∩ b) acc ↔ x ∈ acc ∧ ∀ t ∈ rest, x ∈ t := by
  induction rest with
  | nil => intro acc x; simp
  | cons s rest ih =>
    intro acc x
    rw [List.foldl_cons, ih]
    simp only [Finset.mem_inter, List.mem_cons]
    constructor
    · rintro ⟨⟨h1, h2⟩, h3⟩
      exact ⟨h1, fun t ht => by rcases ht with rfl | ht; exacts [h2, h3 t ht]⟩
    · rintro ⟨h1, h2⟩
      exact ⟨⟨h1, h2 s (Or.inl rfl)⟩, fun t ht => h2 t (Or.inr ht)⟩

lemma mem_intersectAll {L : List (Finset String)} (hL : L ≠ []) (x : String) :
    x ∈ intersectAll L ↔ ∀ t ∈ L, x ∈ t := by
  cases L with
  | nil => exact absurd rfl hL
  | cons s rest =>
    rw [intersectAll, mem_foldl_inter]
    simp only [List.mem_cons]
    constructor
    · rintro ⟨h1, h2⟩ t ht
      rcases ht with rfl | ht; exacts [h1, h2 t ht]
    · intro h
      exact ⟨h s (Or.inl rfl), fun t ht => h t (Or.inr ht)⟩

lemma idx_map_compound_single (idx : String → Option (Finset String)) (w : String) :
    idx_map_compound idx [w] = some ((idx w).getD ∅) := by
  cases h : idx w with
  | none => simp [idx_map_compound, idx_map_part, h, imcLoop]
  | some s => simp [idx_map_compound, idx_map_part, h, imcLoop]

/-- C2: Strategy A looks up each lemma individually, discards lemmas
with an empty result, returns `none` (absent) when every lemma's result
was empty, and otherwise returns the intersection of the one-hop
expanded per-lemma sets — `some` of a possibly empty set, an outcome
distinct from absent. -/
theorem find_compound_characterization (idx txn : String → Option (Finset String))
    (lemmas : List String) (hne : lemmas ≠ []) :
    ((∀ w ∈ lemmas, (idx_map_compound idx [w]).getD ∅ = ∅) →
      find_compound idx txn lemmas = none) ∧
    (∀ w0 ∈ lemmas, (idx_map_compound idx [w0]).getD ∅ ≠ ∅ →
      ∃ s, find_compound idx txn lemmas = some s ∧
        ∀ x, x ∈ s ↔ ∀ w ∈ lemmas, (idx_map_compound idx [w]).getD ∅ ≠ ∅ →
          x ∈ expand_instances txn ((idx_map_compound idx [w]).getD ∅)) := by
  constructor
  · intro hall
    unfold find_compound
    rw [if_neg hne, if_pos]
    rw [List.filter_eq_nil_iff]
    intro s hs
    rcases List.mem_map.mp hs with ⟨w, hw, rfl⟩
    simp [hall w hw]
  · intro w0 hw0 hne0
    unfold find_compound
    rw [if_neg hne]
    have hmem : (idx_map_compound idx [w0]).getD ∅ ∈
        (lemmas.map (fun w => (idx_map_compound idx [w]).getD ∅)).filter
          (fun s => decide (s ≠ ∅)) := by
      rw [List.mem_filter]
      exact ⟨List.mem_map.mpr ⟨w0, hw0, rfl⟩, by simpa using hne0⟩
    have hfil : (lemmas.map (fun w => (idx_map_compound idx [w]).getD ∅)).filter
        (fun s => decide (s ≠ ∅)) ≠ [] := by
      intro hcontra; rw [hcontra] at hmem; exact absurd hmem (List.not_mem_nil _)
    rw [if_neg hfil]
    refine ⟨_, rfl, ?_⟩
    intro x
    have hmapne : ((lemmas.map (fun w => (idx_map_compound idx [w]).getD ∅)).filter
        (fun s => decide (s ≠ ∅))).map (fun s => expand_instances txn s) ≠ [] := by
      simpa using hfil
    rw [mem_intersectAll hmapne]
    constructor
    · intro h w hw hwne
      exact h _ (List.mem_map.mpr ⟨_, List.mem_filter.mpr
        ⟨List.mem_map.mpr ⟨w, hw, rfl⟩, by simpa using hwne⟩, rfl⟩)
    · intro h t ht
      rcases List.mem_map.mp ht with ⟨u, hu, rfl⟩
      rcases List.mem_filter.mp hu with ⟨hu1, hu2⟩
      rcases List.mem_map.mp hu1 with ⟨w, hw, rfl⟩
      exact h w hw (by simpa using hu2)

/-- Witness for C2 at a concrete input: with an index where no lemma
matches, Strategy A returns absent. -/
theorem find_compound_characterization_witness :
    find_compound (fun _ => none) (fun _ => none) ["dog"] = none :=
  (find_compound_characterization (fun _ => none) (fun _ => none) ["dog"]
    (by decide)).1 (by decide)

/-- C9: Strategy A is order-insensitive: permuting the lemma list gives
the same outcome (same set, same empty set, or same absent). -/
theorem find_compound_perm (idx txn : String → Option (Finset String))
    (l1 l2 : List String) (h : l1.Perm l2) :
    find_compound idx txn l1 = find_compound idx txn l2 := by
  by_cases h1 : l1 = []
  · subst h1
    have : l2 = [] := h.symm.eq_nil
    rw [this]
  · have h2 : l2 ≠ [] := fun hc => h1 ((hc ▸ h).eq_nil)
    unfold find_compound
    rw [if_neg h1, if_neg h2]
    have hperm : ((l1.map (fun w => (idx_map_compound idx [w]).getD ∅)).filter
        (fun s => decide (s ≠ ∅))).Perm
        ((l2.map (fun w => (idx_map_compound idx [w]).getD ∅)).filter
        (fun s => decide (s ≠ ∅))) :=
      (h.map _).filter _
    by_cases hf1 : (l1.map (fun w => (idx_map_compound idx [w]).getD ∅)).filter
        (fun s => decide (s ≠ ∅)) = []
    · rw [if_pos hf1, if_pos ((hf1 ▸ hperm).symm.eq_nil)]
    · have hf2 : (l2.map (fun w => (idx_map_compound idx [w]).getD ∅)).filter
          (fun s => decide (s ≠ ∅)) ≠ [] := by
        intro hc; exact hf1 ((hc ▸ hperm).eq_nil)
      rw [if_neg hf1, if_neg hf2]
      congr 1
      have hpe : (((l1.map (fun w => (idx_map_compound idx [w]).getD ∅)).filter
          (fun s => decide (s ≠ ∅))).map (fun s => expand_instances txn s)).Perm
          (((l2.map (fun w => (idx_map_compound idx [w]).getD ∅)).filter
          (fun s => decide (s ≠ ∅))).map (fun s => expand_instances txn s)) :=
        hperm.map _
      apply Finset.ext
      intro x
      rw [mem_intersectAll (by simpa using hf1) x,
        mem_intersectAll (by simpa using hf2) x]
      exact ⟨fun hx t ht => hx t (hpe.mem_iff.mpr ht),
        fun hx t ht => hx t (hpe.mem_iff.mp ht)⟩

/-- A tiny concrete Part Index: dog → {N1, N2}, house → {N3}. -/
def idxDogHouse : String → Option (Finset String) :=
  fun w => if w = "dog" then some {"N1", "N2"} else if w = "house" then some {"N3"} else none

/-- Witness for C9 at a concrete input: swapping the two lemmas leaves
the Strategy A result unchanged. -/
theorem find_compound_perm_witness :
    find_compound idxDogHouse (fun _ => none) ["dog", "house"] =
      find_compound idxDogHouse (fun _ => none) ["house", "dog"] :=
  find_compound_perm idxDogHouse (fun _ => none) ["dog", "house"] ["house", "dog"]
    (by decide)

/-- Part Index for the C6 counterexample: the word a maps to the single
instance node `<x>`. -/
def idxInst : String → Option (Finset String) :=
  fun w => if w = "a" then some {"<x>"} else none

/-- Taxonomy for the C6 counterexample: instance `<x>` has direct class
`<wordnet_c>`. -/
def txnInst : String → Option (Finset String) :=
  fun n => if n = "<x>" then some {"<wordnet_c>"} else none

/-- C6 counterexample: resolving the single-word compound [a] through
`find_compound` does not coincide with the direct Part Index lookup
`idx_map_part`, because `find_compound` also applies the one-hop
instance-to-class expansion: the part set {`<x>`} is expanded to
{`<wordnet_c>`}. -/
theorem find_compound_single_ne_idx_map_part :
    find_compound idxInst txnInst ["a"] = some {"<wordnet_c>"} ∧
    idx_map_part idxInst "a" = some {"<x>"} ∧
    find_compound idxInst txnInst ["a"] ≠ idx_map_part idxInst "a" := by
  refine ⟨by decide, by decide, ?_⟩
  intro hcontra
  have h1 : find_compound idxInst txnInst ["a"] = some {"<wordnet_c>"} := by decide
  have h2 : idx_map_part idxInst "a" = some {"<x>"} := by decide
  rw [h1, h2] at hcontra
  exact absurd hcontra (by decide)

/-- C6 amended: resolving a single-word compound [w] whose Part Index
entry is the non-empty set S yields `some (expand_instances txn S)` —
the one-hop instance-to-class expansion of the direct lookup — and in
particular coincides with the direct Part Index lookup whenever every
node in S is a class. -/
theorem find_compound_single_word (idx txn : String → Option (Finset String))
    (w : String) (S : Finset String) (hw : idx w = some S) (hS : S.Nonempty) :
    find_compound idx txn [w] = some (expand_instances txn S) ∧
    ((∀ x ∈ S, is_class x = true) → find_compound idx txn [w] = some S) := by
  have hlook : (idx_map_compound idx [w]).getD ∅ = S := by
    rw [idx_map_compound_single, hw]; rfl
  have hmain : find_compound idx txn [w] = some (expand_instances txn S) := by
    unfold find_compound
    rw [if_neg (by simp)]
    simp only [List.map_cons, List.map_nil, hlook]
    have hne : ¬ S = ∅ := Finset.nonempty_iff_ne_empty.mp hS
    rw [List.filter_cons_of_pos (by simpa using hne)]
    simp [intersectAll]
  refine ⟨hmain, ?_⟩
  intro hall
  rw [hmain]
  congr 1
  apply Finset.ext
  intro x
  simp only [expand_instances, Finset.mem_biUnion]
  constructor
  · rintro ⟨a, ha, hx⟩
    rw [if_pos (hall a ha)] at hx
    rwa [Finset.mem_singleton.mp hx]
  · intro hx
    exact ⟨x, hx, by rw [if_pos (hall x hx)]; exact Finset.mem_singleton_self x⟩

/-- An all-class Part Index entry for the C6 amended witness. -/
def idxCls : String → Option (Finset String) :=
  fun w => if w = "a" then some {"<wordnet_c>"} else none

/-- Witness for the amended C6 at a concrete input: with an all-class
part set, the single-word compound resolves to the direct lookup. -/
theorem find_compound_single_word_witness :
    find_compound idxCls (fun _ => none) ["a"] = some {"<wordnet_c>"} :=
  (find_compound_single_word idxCls (fun _ => none) "a" {"<wordnet_c>"}
    (by decide) (by decide)).2 (by decide)

/-! ### Strategy B: `YagoDict.find_compound2` -/

/-- `itertools.combinations` in its enumeration order: subsequences of
length k, positions increasing, lexicographic by position. -/
def combinations : Nat → List String → List (List String)
  | 0, _ => [[]]
  | _ + 1, [] => []
  | k + 1, x :: xs =>
    (combinations k xs).map (fun c => x :: c) ++ combinations (k + 1) xs

/-- The enumeration of `find_compound2`: combination lengths running
over `xrange(init_len, min(len(lemmas) + 1, max_len + 1))`, each length
in `itertools.combinations` order. -/
def enumCombs (lemmas : List String) (init_len max_len : Nat) : List (List String) :=
  (List.range' init_len (min (lemmas.length + 1) (max_len + 1) - init_len)).flatMap
    (fun k => combinations k lemmas)

/-- Initial value of `best_len` in the source: `0xFFFFFF`. -/
def bigM : Nat := 0xFFFFFF

/-- One update of the `(best_nodes, best_len)` state of
`find_compound2`: `if min_threshold <= len(nodes) <= best_len`. -/
def updateBest (th : Nat) (st : Option (Finset String) × Nat) (nodes : Finset String) :
    Option (Finset String) × Nat :=
  if th ≤ nodes.card ∧ nodes.card ≤ st.2 then (some nodes, nodes.card) else st

/-- The combination-enumeration loop of `find_compound2`, threading the
`IndexError` that `idx_map_compound` raises on an empty combination. -/
def foldCombsE (idx : String → Option (Finset String)) (th : Nat) :
    List (List String) → Option (Finset String) × Nat →
    Except Unit (Option (Finset String) × Nat)
  | [], st => Except.ok st
  | c :: rest, st =>
    match idx_map_compound idx c with
    | none => Except.error ()
    | some nodes => foldCombsE idx th rest (updateBest th st nodes)

/-- The node set `idx_map_compound` returns on a non-empty
combination. -/
def nodesOfComb (idx : String → Option (Finset String)) (c : List String) : Finset String :=
  (idx_map_compound idx c).getD ∅

/-- Error-free form of the enumeration loop, equal to `foldCombsE` when
every enumerated combination is non-empty. -/
def foldCombs (idx : String → Option (Finset String)) (th : Nat)
    (E : List (List String)) (st : Option (Finset String) × Nat) :
    Option (Finset String) × Nat :=
  E.foldl (fun st c => updateBest th st (nodesOfComb idx c)) st

/-- Canonical enumeration of a node set, modelling Python's (otherwise
unspecified) set iteration order as the sorted order; evaluates in the
kernel, unlike `Finset.sort`. -/
def enumSet (s : Finset String) : List String :=
  Quot.liftOn s.val (fun l => List.insertionSort strLe l)
    (fun _ _ h => List.eq_of_perm_of_sorted
      ((List.perm_insertionSort strLe _).trans (h.trans (List.perm_insertionSort strLe _).symm))
      (List.sorted_insertionSort strLe _) (List.sorted_insertionSort strLe _))

/-- One step of Python's `min` with key `len(node.split("_"))`: keep
the running minimum, replacing it only on a strictly smaller key. -/
def argStep (acc : Option String) (x : String) : Option String :=
  match acc with
  | none => some x
  | some m => if segCount x < segCount m then some x else some m

/-- Python's `min(iter, key=lambda node: len(node.split("_")))`: walk
the iteration order keeping the first element with strictly smallest
key; `none` models the `ValueError` on an empty iterable. -/
def argminBySegs (l : List String) : Option String :=
  l.foldl argStep none

/-- The `prefer_classes` post-processing of `find_compound2`: keep only
class nodes when any is present, otherwise the single instance node
with the fewest underscore-delimited segments.  `Except.error ()`
models the `ValueError` of `min` over an empty set. -/
def postProcess (best : Option (Finset String)) (prefer_classes : Bool) :
    Except Unit (Option (Finset String)) :=
  match best with
  | none => Except.ok none
  | some bs =>
    if prefer_classes then
      if (bs.filter (fun n => is_class n = true)).Nonempty then
        Except.ok (some (bs.filter (fun n => is_class n = true)))
      else
        match argminBySegs (enumSet bs) with
        | some m => Except.ok (some {m})
        | none => Except.error ()
    else Except.ok (some bs)

/-- Embedding of `YagoDict.find_compound2` (Strategy B).
`Except.error ()` models an uncaught Python exception. -/
def find_compound2 (idx : String → Option (Finset String)) (lemmas : List String)
    (min_threshold init_len max_len : Nat) (prefer_classes : Bool) :
    Except Unit (Option (Finset String)) :=
  if lemmas = [] then Except.ok none
  else
    match foldCombsE idx min_threshold (enumCombs lemmas init_len max_len) (none, bigM) with
    | Except.error e => Except.error e
    | Except.ok st => postProcess st.1 prefer_classes

lemma combinations_length : ∀ (k : Nat) (l : List String), ∀ c ∈ combinations k l,
    c.length = k := by
  intro k
  induction k with
  | zero => intro l c hc; simp [combinations] at hc; simp [hc]
  | succ n ih =>
    intro l
    induction l with
    | nil => intro c hc; simp [combinations] at hc
    | cons x xs ihl =>
      intro c hc
      rw [combinations, List.mem_append] at hc
      rcases hc with hc | hc
      · rcases List.mem_map.mp hc with ⟨d, hd, rfl⟩
        simp [ih xs d hd]
      · exact ihl c hc

lemma enumCombs_ne_nil {lemmas : List String} {il ml : Nat} (h1 : 1 ≤ il) :
    ∀ c ∈ enumCombs lemmas il ml, c ≠ [] := by
  intro c hc
  rw [enumCombs, List.mem_flatMap] at hc
  rcases hc with ⟨k, hk, hck⟩
  rw [List.mem_range'] at hk
  rcases hk with ⟨i, _, rfl⟩
  have hlen := combinations_length (il + 1 * i) lemmas c hck
  intro hcontra
  rw [hcontra] at hlen
  simp at hlen
  omega

lemma idx_map_compound_cons (idx : String → Option (Finset String)) (p : String)
    (rest : List String) :
    idx_map_compound idx (p :: rest) = some (nodesOfComb idx (p :: rest)) := rfl

lemma foldCombsE_eq_foldCombs (idx : String → Option (Finset String)) (th : Nat) :
    ∀ (E : List (List String)), (∀ c ∈ E, c ≠ []) →
    ∀ st, foldCombsE idx th E st = Except.ok (foldCombs idx th E st) := by
  intro E
  induction E with
  | nil => intro _ st; rfl
  | cons c rest ih =>
    intro hne st
    cases c with
    | nil => exact absurd rfl (hne [] (List.mem_cons_self _ _))
    | cons p ps =>
      rw [foldCombsE, idx_map_compound_cons]
      exact ih (fun d hd => hne d (List.mem_cons_of_mem _ hd)) _

lemma find_compound2_eq_fold (idx : String → Option (Finset String))
    {lemmas : List String} {il : Nat} (th ml : Nat) (prefer_classes : Bool)
    (h1 : 1 ≤ il) (h2 : lemmas ≠ []) :
    find_compound2 idx lemmas th il ml prefer_classes =
      postProcess (foldCombs idx th (enumCombs lemmas il ml) (none, bigM)).1
        prefer_classes := by
  unfold find_compound2
  rw [if_neg h2, foldCombsE_eq_foldCombs idx th _ (enumCombs_ne_nil h1) _]

lemma imcLoop_all_some : ∀ (os : List (Option (Finset String))) (acc : Finset String),
    (∀ o ∈ os, o ≠ none) →
    ∀ x, x ∈ imcLoop acc os ↔ x ∈ acc ∧ ∀ o ∈ os, x ∈ o.getD ∅ := by
  intro os
  induction os with
  | nil => intro acc _ x; simp [imcLoop]
  | cons o rest ih =>
    intro acc hall x
    cases o with
    | none => exact absurd rfl (hall none (List.mem_cons_self _ _))
    | some s =>
      rw [imcLoop, ih _ (fun o ho => hall o (List.mem_cons_of_mem _ ho))]
      simp only [Finset.mem_inter, List.mem_cons]
      constructor
      · rintro ⟨⟨h1, h2⟩, h3⟩
        refine ⟨h1, fun o ho => ?_⟩
        rcases ho with rfl | ho
        · simpa using h2
        · exact h3 o ho
      · rintro ⟨h1, h2⟩
        exact ⟨⟨h1, by simpa using h2 (some s) (Or.inl rfl)⟩,
          fun o ho => h2 o (Or.inr ho)⟩

lemma imcLoop_has_none : ∀ (os : List (Option (Finset String))) (acc : Finset String),
    (∃ o ∈ os, o = none) → imcLoop acc os = ∅ := by
  intro os
  induction os with
  | nil => intro acc h; simp at h
  | cons o rest ih =>
    intro acc h
    cases o with
    | none => rfl
    | some s =>
      rw [imcLoop]
      apply ih
      rcases h with ⟨o', ho', hnone⟩
      rcases List.mem_cons.mp ho' with rfl | ho'
      · exact absurd hnone (by simp)
      · exact ⟨o', ho', hnone⟩

/-- C10: `idx_map_compound` is total exactly on non-empty compounds: on
a non-empty compound it returns `some` of the intersection of the
per-part Part Index sets (empty as soon as one part is absent), while
the empty compound indexes `node_sets[0]` out of range — modelled as
`none` — and that empty-compound case is reached from `find_compound2`
whenever `init_len = 0` and the lemma list is non-empty, because the
single combination of length 0 is the empty compound. -/
theorem idx_map_compound_domain (idx : String → Option (Finset String))
    (th ml : Nat) (prefer_classes : Bool) :
    idx_map_compound idx [] = none ∧
    (∀ c : List String, c ≠ [] → ∃ s, idx_map_compound idx c = some s ∧
      ((∀ p ∈ c, idx p ≠ none) → ∀ x, x ∈ s ↔ ∀ p ∈ c, x ∈ (idx p).getD ∅) ∧
      ((∃ p ∈ c, idx p = none) → s = ∅)) ∧
    (∀ lemmas : List String, lemmas ≠ [] →
      find_compound2 idx lemmas th 0 ml prefer_classes = Except.error ()) := by
  refine ⟨rfl, ?_, ?_⟩
  · intro c hc
    cases c with
    | nil => exact absurd rfl hc
    | cons p rest =>
      refine ⟨nodesOfComb idx (p :: rest), idx_map_compound_cons idx p rest, ?_, ?_⟩
      · intro hall x
        have hos : ∀ o ∈ (p :: rest).map (fun part => idx_map_part idx part), o ≠ none := by
          intro o ho
          rcases List.mem_map.mp ho with ⟨q, hq, rfl⟩
          exact hall q hq
        show x ∈ (idx_map_compound idx (p :: rest)).getD ∅ ↔ _
        unfold idx_map_compound
        simp only [List.map_cons]
        rw [Option.getD_some]
        rw [imcLoop_all_some _ _ (by
          simpa only [List.map_cons] using hos) x]
        constructor
        · rintro ⟨_, h2⟩
          intro q hq
          have hq2 : idx_map_part idx q ∈ (p :: rest).map (fun part => idx_map_part idx part) :=
            List.mem_map.mpr ⟨q, hq, rfl⟩
          exact h2 (idx_map_part idx q) (by simpa only [List.map_cons] using hq2)
        · intro h
          refine ⟨h p (List.mem_cons_self _ _), ?_⟩
          intro o ho
          rcases List.mem_map.mp (by
              simpa only [List.map_cons] using ho :
                o ∈ (p :: rest).map (fun part => idx_map_part idx part)) with ⟨q, hq, rfl⟩
          exact h q hq
      · intro hsome
        show (idx_map_compound idx (p :: rest)).getD ∅ = ∅
        unfold idx_map_compound
        simp only [List.map_cons]
        rw [Option.getD_some]
        apply imcLoop_has_none
        rcases hsome with ⟨q, hq, hnone⟩
        have hq2 : idx_map_part idx q ∈ (p :: rest).map (fun part => idx_map_part idx part) :=
          List.mem_map.mpr ⟨q, hq, rfl⟩
        exact ⟨idx_map_part idx q, by simpa only [List.map_cons] using hq2, hnone⟩
  · intro lemmas hlem
    unfold find_compound2
    rw [if_neg hlem]
    have hK : min (lemmas.length + 1) (ml + 1) = (min lemmas.length ml) + 1 := by omega
    have hE : enumCombs lemmas 0 ml = [] :: ((List.range' 1 (min lemmas.length ml)).flatMap
        (fun k => combinations k lemmas)) := by
      rw [enumCombs, Nat.sub_zero, hK, List.range'_succ, List.flatMap_cons]
      simp [combinations]
    rw [hE]
    rfl

/-- Witness for C10 at a concrete input: `init_len = 0` makes
`find_compound2` hit the empty combination and fail. -/
theorem idx_map_compound_domain_witness :
    find_compound2 (fun _ => none) ["a"] 1 0 3 true = Except.error () :=
  (idx_map_compound_domain (fun _ => none) 1 3 true).2.2 ["a"] (by decide)

lemma updateBest_pos {th : Nat} {st : Option (Finset String) × Nat} {nodes : Finset String}
    (h1 : th ≤ nodes.card) (h2 : nodes.card ≤ st.2) :
    updateBest th st nodes = (some nodes, nodes.card) := by
  unfold updateBest; rw [if_pos ⟨h1, h2⟩]

lemma updateBest_neg {th : Nat} {st : Option (Finset String) × Nat} {nodes : Finset String}
    (h : ¬ (th ≤ nodes.card ∧ nodes.card ≤ st.2)) :
    updateBest th st nodes = st := by
  unfold updateBest; rw [if_neg h]

lemma foldCombs_append (idx : String → Option (Finset String)) (th : Nat)
    (E : List (List String)) (c : List String) (st : Option (Finset String) × Nat) :
    foldCombs idx th (E ++ [c]) st =
      updateBest th (foldCombs idx th E st) (nodesOfComb idx c) := by
  simp [foldCombs, List.foldl_append]

lemma foldCombs_card_invariant (idx : String → Option (Finset String)) (th : Nat) :
    ∀ (E : List (List String)) (st : Option (Finset String) × Nat),
      (∀ s, st.1 = some s → th ≤ s.card) →
      ∀ s, (foldCombs idx th E st).1 = some s → th ≤ s.card := by
  intro E
  induction E with
  | nil => intro st h s hs; exact h s hs
  | cons c rest ih =>
    intro st h s hs
    refine ih (updateBest th st (nodesOfComb idx c)) ?_ s hs
    intro s2 hs2
    by_cases hcond : th ≤ (nodesOfComb idx c).card ∧ (nodesOfComb idx c).card ≤ st.2
    · rw [updateBest_pos hcond.1 hcond.2] at hs2
      cases hs2
      exact hcond.1
    · rw [updateBest_neg hcond] at hs2
      exact h s2 hs2

lemma foldCombs_no_qual (idx : String → Option (Finset String)) (th : Nat) :
    ∀ (E : List (List String)), (∀ c ∈ E, ¬ th ≤ (nodesOfComb idx c).card) →
    ∀ st, foldCombs idx th E st = st := by
  intro E
  induction E with
  | nil => intro _ st; rfl
  | cons c rest ih =>
    intro hall st
    have h1 : updateBest th st (nodesOfComb idx c) = st :=
      updateBest_neg (fun hcon => hall c (List.mem_cons_self _ _) hcon.1)
    show foldCombs idx th rest (updateBest th st (nodesOfComb idx c)) = st
    rw [h1]
    exact ih (fun d hd => hall d (List.mem_cons_of_mem _ hd)) st

/-- The full characterization of the `(best_nodes, best_len)` fold of
`find_compound2`: either no combination qualifies and the state is
untouched, or the final witness is the combination that is *last in
enumeration order* among those attaining the minimal qualifying size. -/
lemma foldCombs_charn (idx : String → Option (Finset String)) (th : Nat) :
    ∀ E : List (List String), (∀ c ∈ E, (nodesOfComb idx c).card ≤ bigM) →
      (foldCombs idx th E (none, bigM) = (none, bigM) ∧
        ∀ c ∈ E, ¬ th ≤ (nodesOfComb idx c).card) ∨
      (∃ E1 c E2, E = E1 ++ c :: E2 ∧ th ≤ (nodesOfComb idx c).card ∧
        foldCombs idx th E (none, bigM) =
          (some (nodesOfComb idx c), (nodesOfComb idx c).card) ∧
        (∀ d ∈ E, th ≤ (nodesOfComb idx d).card →
          (nodesOfComb idx c).card ≤ (nodesOfComb idx d).card) ∧
        (∀ d ∈ E2, th ≤ (nodesOfComb idx d).card →
          (nodesOfComb idx c).card < (nodesOfComb idx d).card)) := by
  intro E
  induction E using List.reverseRecOn with
  | nil => intro _; left; exact ⟨rfl, by simp⟩
  | append_singleton E a ih =>
    intro hcap
    have hcapE : ∀ c ∈ E, (nodesOfComb idx c).card ≤ bigM :=
      fun c hc => hcap c (List.mem_append_left _ hc)
    have hcapa : (nodesOfComb idx a).card ≤ bigM :=
      hcap a (List.mem_append_right _ (List.mem_singleton.mpr rfl))
    rw [foldCombs_append]
    rcases ih hcapE with ⟨hst, hnone⟩ | ⟨E1, c, E2, hsplit, hqc, hst, hmin, hstrict⟩
    · rw [hst]
      by_cases hq : th ≤ (nodesOfComb idx a).card
      · right
        refine ⟨E, a, [], by simp, hq, updateBest_pos hq hcapa, ?_, by simp⟩
        intro d hd hqd
        rcases List.mem_append.mp hd with hd | hd
        · exact absurd hqd (hnone d hd)
        · obtain rfl := List.mem_singleton.mp hd
          exact le_refl _
      · left
        refine ⟨updateBest_neg (fun hcon => hq hcon.1), ?_⟩
        intro d hd
        rcases List.mem_append.mp hd with hd | hd
        · exact hnone d hd
        · obtain rfl := List.mem_singleton.mp hd
          exact hq
    · rw [hst]
      by_cases hq : th ≤ (nodesOfComb idx a).card
      · by_cases hle : (nodesOfComb idx a).card ≤ (nodesOfComb idx c).card
        · right
          refine ⟨E, a, [], by simp, hq, updateBest_pos hq hle, ?_, by simp⟩
          intro d hd hqd
          rcases List.mem_append.mp hd with hd | hd
          · exact le_trans hle (hmin d hd hqd)
          · obtain rfl := List.mem_singleton.mp hd
            exact le_refl _
        · right
          refine ⟨E1, c, E2 ++ [a], by rw [hsplit]; simp, hqc,
            updateBest_neg (fun hcon => hle hcon.2), ?_, ?_⟩
          · intro d hd hqd
            rcases List.mem_append.mp hd with hd | hd
            · exact hmin d hd hqd
            · obtain rfl := List.mem_singleton.mp hd
              exact le_of_lt (not_le.mp hle)
          · intro d hd hqd
            rcases List.mem_append.mp hd with hd | hd
            · exact hstrict d hd hqd
            · obtain rfl := List.mem_singleton.mp hd
              exact not_le.mp hle
      · right
        refine ⟨E1, c, E2 ++ [a], by rw [hsplit]; simp, hqc,
          updateBest_neg (fun hcon => hq hcon.1), ?_, ?_⟩
        · intro d hd hqd
          rcases List.mem_append.mp hd with hd | hd
          · exact hmin d hd hqd
          · obtain rfl := List.mem_singleton.mp hd
            exact absurd hqd hq
        · intro d hd hqd
          rcases List.mem_append.mp hd with hd | hd
          · exact hstrict d hd hqd
          · obtain rfl := List.mem_singleton.mp hd
            exact absurd hqd hq

/-- Part Index for the C3 counterexample: a → {N1}, b → {N2}. -/
def idxAB : String → Option (Finset String) :=
  fun w => if w = "a" then some {"N1"} else if w = "b" then some {"N2"} else none

/-- C3 counterexample: with lemmas [a, b], threshold 1, the qualifying
combinations (a) and (b) tie at size 1, (a) being first in enumeration
order with result {N1}; `find_compound2` nevertheless returns {N2},
the set of the *last* tied combination, because the update condition is
`len(nodes) <= best_len` rather than strict. -/
theorem find_compound2_tie_not_first :
    enumCombs ["a", "b"] 1 3 = [["a"], ["b"], ["a", "b"]] ∧
    nodesOfComb idxAB ["a"] = {"N1"} ∧
    nodesOfComb idxAB ["b"] = {"N2"} ∧
    find_compound2 idxAB ["a", "b"] 1 1 3 false = Except.ok (some {"N2"}) ∧
    ({"N2"} : Finset String) ≠ {"N1"} := by
  refine ⟨by decide, by decide, by decide, by decide, by decide⟩

/-- C3 amended: among the enumerated combinations whose Part Index
intersection has size ≥ `min_threshold` (all sizes being below the
`0xFFFFFF` sentinel), the returned witness set has the minimal such
size, and when several combinations attain that minimal size the one
kept is the *last* one found in enumeration order (the update condition
`min_threshold <= len(nodes) <= best_len` lets later ties replace the
stored witness); if no combination qualifies the result is absent. -/
theorem find_compound2_min_size_last_tie (idx : String → Option (Finset String))
    (lemmas : List String) (th il ml : Nat) (h1 : 1 ≤ il) (h2 : lemmas ≠ [])
    (hcap : ∀ c ∈ enumCombs lemmas il ml, (nodesOfComb idx c).card ≤ bigM) :
    ((∀ c ∈ enumCombs lemmas il ml, ¬ th ≤ (nodesOfComb idx c).card) →
      find_compound2 idx lemmas th il ml false = Except.ok none) ∧
    ((∃ c ∈ enumCombs lemmas il ml, th ≤ (nodesOfComb idx c).card) →
      ∃ s, find_compound2 idx lemmas th il ml false = Except.ok (some s)) ∧
    (∀ s, find_compound2 idx lemmas th il ml false = Except.ok (some s) →
      ∃ E1 c E2, enumCombs lemmas il ml = E1 ++ c :: E2 ∧
        th ≤ (nodesOfComb idx c).card ∧ s = nodesOfComb idx c ∧
        (∀ d ∈ enumCombs lemmas il ml, th ≤ (nodesOfComb idx d).card →
          (nodesOfComb idx c).card ≤ (nodesOfComb idx d).card) ∧
        (∀ d ∈ E2, th ≤ (nodesOfComb idx d).card →
          (nodesOfComb idx c).card < (nodesOfComb idx d).card)) := by
  have heq := find_compound2_eq_fold idx th ml false h1 h2
  rcases foldCombs_charn idx th (enumCombs lemmas il ml) hcap with
    ⟨hst, hnone⟩ | ⟨E1, c, E2, hsplit, hqc, hst, hmin, hstrict⟩
  · refine ⟨fun _ => ?_, fun hex => ?_, fun s hs => ?_⟩
    · rw [heq, hst]; rfl
    · rcases hex with ⟨c, hc, hqc⟩
      exact absurd hqc (hnone c hc)
    · rw [heq, hst] at hs
      simp [postProcess] at hs
  · refine ⟨fun hall => ?_, fun _ => ⟨nodesOfComb idx c, ?_⟩, fun s hs => ?_⟩
    · exact absurd hqc (hall c (by
        rw [hsplit]; exact List.mem_append_right _ (List.mem_cons_self _ _)))
    · rw [heq, hst]; rfl
    · rw [heq, hst] at hs
      have hcs : nodesOfComb idx c = s := by
        simpa [postProcess] using hs
      exact ⟨E1, c, E2, hsplit, hqc, hcs.symm, hmin, hstrict⟩

/-- Witness for the amended C3 at a concrete input: no combination
qualifies, so Strategy B returns absent. -/
theorem find_compound2_min_size_last_tie_witness :
    find_compound2 (fun _ => none) ["a"] 1 1 3 false = Except.ok none :=
  (find_compound2_min_size_last_tie (fun _ => none) ["a"] 1 1 3 (by decide) (by decide)
    (by decide)).1 (by decide)

/-- Part Index for the C4 counterexample: a → {N1, N2_p}, two instance
nodes. -/
def idxTwoInst : String → Option (Finset String) :=
  fun w => if w = "a" then some {"N1", "N2_p"} else none

/-- C4 counterexample: with `min_threshold = 2` and `prefer_classes`
set, the best tracked set {N1, N2_p} has size 2, but the
`prefer_classes` post-processing (no class present → keep only the
shortest-named instance) shrinks the returned set to the singleton
{N1}, whose size 1 is below the threshold — so the claim fails for
`prefer_classes = true`. -/
theorem find_compound2_pc_breaks_threshold :
    find_compound2 idxTwoInst ["a"] 2 1 3 true = Except.ok (some {"N1"}) ∧
    ({"N1"} : Finset String).card < 2 := by
  refine ⟨by decide, by decide⟩

/-- C4 amended: with `prefer_classes` unset, Strategy B never returns a
set whose size is below `min_threshold`; and (for either setting of
`prefer_classes`) when no combination meets the threshold the result is
absent. -/
theorem find_compound2_threshold (idx : String → Option (Finset String))
    (lemmas : List String) (th il ml : Nat) (h1 : 1 ≤ il) :
    (∀ s, find_compound2 idx lemmas th il ml false = Except.ok (some s) → th ≤ s.card) ∧
    ((∀ c ∈ enumCombs lemmas il ml, (nodesOfComb idx c).card < th) →
      ∀ prefer_classes, find_compound2 idx lemmas th il ml prefer_classes =
        Except.ok none) := by
  by_cases h2 : lemmas = []
  · subst h2
    refine ⟨fun s hs => ?_, fun _ prefer_classes => ?_⟩
    · unfold find_compound2 at hs
      simp at hs
    · unfold find_compound2
      rw [if_pos rfl]
  · constructor
    · intro s hs
      rw [find_compound2_eq_fold idx th ml false h1 h2] at hs
      cases hfold : (foldCombs idx th (enumCombs lemmas il ml) (none, bigM)).1 with
      | none =>
        rw [hfold] at hs
        simp [postProcess] at hs
      | some bs =>
        rw [hfold] at hs
        have hbs : bs = s := by simpa [postProcess] using hs
        refine foldCombs_card_invariant idx th (enumCombs lemmas il ml) (none, bigM)
          (by intro s2 hs2; cases hs2) s ?_
        rw [hfold, hbs]
    · intro hall prefer_classes
      rw [find_compound2_eq_fold idx th ml prefer_classes h1 h2,
        foldCombs_no_qual idx th (enumCombs lemmas il ml)
          (fun c hc => not_le.mpr (hall c hc)) (none, bigM)]
      rfl

/-- Witness for the amended C4 at a concrete input. -/
theorem find_compound2_threshold_witness :
    find_compound2 (fun _ => none) ["a"] 1 1 3 true = Except.ok none :=
  (find_compound2_threshold (fun _ => none) ["a"] 1 1 3 (by decide)).2 (by decide) true

lemma argStep_none (x : String) : argStep none x = some x := rfl

lemma argStep_some_pos {m0 x : String} (h : segCount x < segCount m0) :
    argStep (some m0) x = some x := by
  show (if segCount x < segCount m0 then some x else some m0) = some x
  rw [if_pos h]

lemma argStep_some_neg {m0 x : String} (h : ¬ segCount x < segCount m0) :
    argStep (some m0) x = some m0 := by
  show (if segCount x < segCount m0 then some x else some m0) = some m0
  rw [if_neg h]

lemma argminBySegs_go : ∀ (l : List String) (acc : Option String) (m : String),
    l.foldl argStep acc = some m →
    (acc = some m ∨ m ∈ l) ∧ (∀ x ∈ l, segCount m ≤ segCount x) ∧
    (∀ a, acc = some a → segCount m ≤ segCount a) := by
  intro l
  induction l with
  | nil =>
    intro acc m h
    refine ⟨Or.inl h, by simp, ?_⟩
    intro a ha
    rw [ha] at h
    cases h
    exact le_refl _
  | cons x xs ih =>
    intro acc m h
    rw [List.foldl_cons] at h
    rcases ih _ m h with ⟨hmem, hxs, hstep⟩
    have hseg_x : segCount m ≤ segCount x := by
      cases acc with
      | none => exact hstep x (argStep_none x)
      | some m0 =>
        by_cases hlt : segCount x < segCount m0
        · exact hstep x (argStep_some_pos hlt)
        · exact le_trans (hstep m0 (argStep_some_neg hlt)) (not_lt.mp hlt)
    refine ⟨?_, ?_, ?_⟩
    · rcases hmem with hstepm | hm
      · cases acc with
        | none =>
          rw [argStep_none] at hstepm
          cases hstepm
          exact Or.inr (List.mem_cons_self _ _)
        | some m0 =>
          by_cases hlt : segCount x < segCount m0
          · rw [argStep_some_pos hlt] at hstepm
            cases hstepm
            exact Or.inr (List.mem_cons_self _ _)
          · rw [argStep_some_neg hlt] at hstepm
            exact Or.inl hstepm
      · exact Or.inr (List.mem_cons_of_mem _ hm)
    · intro y hy
      rcases List.mem_cons.mp hy with rfl | hy
      · exact hseg_x
      · exact hxs y hy
    · intro a ha
      subst ha
      by_cases hlt : segCount x < segCount a
      · exact le_trans (hstep x (argStep_some_pos hlt)) (le_of_lt hlt)
      · exact hstep a (argStep_some_neg hlt)

lemma argminBySegs_spec {l : List String} {m : String} (h : argminBySegs l = some m) :
    m ∈ l ∧ ∀ x ∈ l, segCount m ≤ segCount x := by
  rcases argminBySegs_go l none m h with ⟨hmem, hall, _⟩
  rcases hmem with hnone | hm
  · cases hnone
  · exact ⟨hm, hall⟩

lemma argminBySegs_isSome : ∀ (l : List String), l ≠ [] → ∃ m, argminBySegs l = some m := by
  have hgo : ∀ (xs : List String) (a : String),
      ∃ m, xs.foldl argStep (some a) = some m := by
    intro xs
    induction xs with
    | nil => intro a; exact ⟨a, rfl⟩
    | cons x xs ih =>
      intro a
      rw [List.foldl_cons]
      by_cases hlt : segCount x < segCount a
      · rw [argStep_some_pos hlt]; exact ih x
      · rw [argStep_some_neg hlt]; exact ih a
  intro l hl
  cases l with
  | nil => exact absurd rfl hl
  | cons x xs => exact hgo xs x

lemma enumSet_mem (s : Finset String) (x : String) : x ∈ enumSet s ↔ x ∈ s := by
  rcases s with ⟨val, nd⟩
  induction val using Quot.inductionOn with
  | h l =>
    show x ∈ List.insertionSort strLe l ↔ _
    rw [(List.perm_insertionSort strLe l).mem_iff]
    rfl

lemma enumSet_ne_nil {s : Finset String} (h : s.Nonempty) : enumSet s ≠ [] := by
  rcases h with ⟨x, hx⟩
  have hmem := (enumSet_mem s x).mpr hx
  intro hc
  rw [hc] at hmem
  exact absurd hmem (List.not_mem_nil x)

/-- C8: when `prefer_classes` is set and the enumeration tracked a best
set: if any node of the best set is a class (class-prefix predicate),
the result is the best set filtered to its class nodes; otherwise the
result is a singleton holding an instance node of the best set whose
identifier has the fewest underscore-delimited segments. -/
theorem find_compound2_prefer_classes (idx : String → Option (Finset String))
    (lemmas : List String) (th il ml : Nat) (best : Finset String)
    (h1 : 1 ≤ il) (h2 : lemmas ≠ []) (hth : 1 ≤ th)
    (hbest : (foldCombs idx th (enumCombs lemmas il ml) (none, bigM)).1 = some best) :
    ((∃ x ∈ best, is_class x = true) →
      find_compound2 idx lemmas th il ml true =
        Except.ok (some (best.filter (fun n => is_class n = true)))) ∧
    ((∀ x ∈ best, ¬ is_class x = true) →
      ∃ m, find_compound2 idx lemmas th il ml true = Except.ok (some {m}) ∧
        m ∈ best ∧ ∀ x ∈ best, segCount m ≤ segCount x) := by
  have heq := find_compound2_eq_fold idx th ml true h1 h2
  constructor
  · intro hex
    have hne : (best.filter (fun n => is_class n = true)).Nonempty :=
      Finset.filter_nonempty_iff.mpr hex
    rw [heq, hbest]
    simp [postProcess, hne]
  · intro hall
    have hfe : ¬ (best.filter (fun n => is_class n = true)).Nonempty := by
      rw [Finset.filter_eq_empty_iff.mpr hall]
      exact Finset.not_nonempty_empty
    have hbne : best.Nonempty := by
      rw [← Finset.card_pos]
      exact lt_of_lt_of_le Nat.zero_lt_one
        (foldCombs_card_invariant idx th (enumCombs lemmas il ml) (none, bigM)
          (by intro s2 hs2; cases hs2) best hbest |>.trans' hth)
    obtain ⟨m, hm⟩ := argminBySegs_isSome (enumSet best) (enumSet_ne_nil hbne)
    rcases argminBySegs_spec hm with ⟨hmmem, hmall⟩
    refine ⟨m, ?_, (enumSet_mem best m).mp hmmem, ?_⟩
    · rw [heq, hbest]
      simp [postProcess, hfe, hm]
    · intro x hx
      exact hmall x ((enumSet_mem best x).mpr hx)

/-- Part Index for the C8 witness: a → {I1, `<wordnet_c>`}, one
instance and one class. -/
def idxMix : String → Option (Finset String) :=
  fun w => if w = "a" then some {"I1", "<wordnet_c>"} else none

/-- Witness for C8 at a concrete input: the mixed best set is filtered
down to its class nodes. -/
theorem find_compound2_prefer_classes_witness :
    find_compound2 idxMix ["a"] 1 1 3 true =
      Except.ok (some (Finset.filter (fun n => is_class n = true) {"I1", "<wordnet_c>"})) :=
  (find_compound2_prefer_classes idxMix ["a"] 1 1 3 {"I1", "<wordnet_c>"} (by decide)
    (by decide) (by decide) (by decide)).1 (by decide)

/-! ### Label Index build: `YagoDict.create_kvs_from_sql`

The `yago_node` table is a list of (label, node) rows.
`SELECT label,node FROM yago_node ORDER BY label` is modelled by an
insertion sort on the label.  The grouped-aggregation loop carries
(`prev`, `node_set`), where `none` is Python's initial `None` state,
and emits one put per label group (the trailing group after the loop
included).  The LevelDB store is the list of puts replayed left to
right. -/

def rowLe (a b : String × String) : Prop := strLe a.1 b.1

instance : DecidableRel rowLe := fun a b => by unfold rowLe; infer_instance

instance : IsTotal (String × String) rowLe :=
  ⟨fun a b => strLeChars_total a.1.toList b.1.toList⟩

instance : IsTrans (String × String) rowLe :=
  ⟨fun a b c hab hbc => strLeChars_trans a.1.toList b.1.toList c.1.toList hab hbc⟩

/-- `ORDER BY label` over the row list. -/
def sortRows (rows : List (String × String)) : List (String × String) :=
  List.insertionSort rowLe rows

/-- The grouped-aggregation loop of `create_kvs_from_sql` (also reused
by `create_idx_from_sql` over the part rows): emit the previous group
when the grouping key changes, accumulate otherwise, emit the trailing
non-empty group at the end. -/
def kvsLoop : List (String × String) → Option (String × Finset String) →
    List (String × Finset String)
  | [], none => []
  | [], some (p, s) => if s ≠ ∅ then [(p, s)] else []
  | (label, node) :: rest, none => kvsLoop rest (some (label, {node}))
  | (label, node) :: rest, some (p, s) =>
    if label = p then kvsLoop rest (some (p, insert node s))
    else (if s ≠ ∅ then [(p, s)] else []) ++ kvsLoop rest (some (label, {node}))

/-- Embedding of `YagoDict.create_kvs_from_sql`: the sequence of puts
it issues against the Label Index. -/
def create_kvs_from_sql (rows : List (String × String)) : List (String × Finset String) :=
  kvsLoop (sortRows rows) none

/-- Applying one put to a key-value store. -/
def storeUpd (m : String → Option (Finset String)) (kv : String × Finset String) :
    String → Option (Finset String) :=
  fun x => if x = kv.1 then some kv.2 else m x

/-- Replaying a list of puts on the empty store; later puts overwrite
earlier ones, absent keys are `none`. -/
def storeOf (puts : List (String × Finset String)) : String → Option (Finset String) :=
  puts.foldl storeUpd (fun _ => none)

/-- Embedding of `YagoDict.kvs_map_lemma`: `Get` on the built Label
Index, `None` on a missing key. -/
def kvs_map_lemma (puts : List (String × Finset String)) (w : String) :
    Option (Finset String) :=
  storeOf puts w

/-- The set of nodes inserted under a label. -/
def nodesUnder (rows : List (String × String)) (L : String) : Finset String :=
  ((rows.filter (fun r => decide (r.1 = L))).map (fun r => r.2)).toFinset

/-- The answer the built Label Index should give for a label: the node
set when non-empty, absent otherwise. -/
def optNodes (rows : List (String × String)) (L : String) : Option (Finset String) :=
  if nodesUnder rows L = ∅ then none else some (nodesUnder rows L)

lemma mem_nodesUnder {rows : List (String × String)} {L x : String} :
    x ∈ nodesUnder rows L ↔ (L, x) ∈ rows := by
  unfold nodesUnder
  rw [List.mem_toFinset]
  constructor
  · intro h
    rcases List.mem_map.mp h with ⟨r, hr, hx⟩
    rcases List.mem_filter.mp hr with ⟨hrm, hrl⟩
    have h1 : r.1 = L := by simpa using hrl
    have : (L, x) = r := by
      rcases r with ⟨a, b⟩
      simp at h1 hx ⊢
      exact ⟨h1.symm, hx.symm⟩
    rwa [this]
  · intro h
    exact List.mem_map.mpr ⟨(L, x), List.mem_filter.mpr ⟨h, by simp⟩, rfl⟩

lemma nodesUnder_cons (r : String × String) (rows : List (String × String)) (L : String) :
    nodesUnder (r :: rows) L =
      if r.1 = L then insert r.2 (nodesUnder rows L) else nodesUnder rows L := by
  by_cases h : r.1 = L
  · rw [if_pos h]
    unfold nodesUnder
    rw [List.filter_cons_of_pos (by simpa using h), List.map_cons, List.toFinset_cons]
  · rw [if_neg h]
    unfold nodesUnder
    rw [List.filter_cons_of_neg (by simpa using h)]

lemma nodesUnder_perm {l1 l2 : List (String × String)} (h : l1.Perm l2) (L : String) :
    nodesUnder l1 L = nodesUnder l2 L := by
  apply Finset.ext
  intro x
  rw [mem_nodesUnder, mem_nodesUnder, h.mem_iff]

lemma storeOf_shift : ∀ (puts : List (String × Finset String))
    (m : String → Option (Finset String)) (L : String),
    puts.foldl storeUpd m L = (storeOf puts L).or (m L) := by
  intro puts
  induction puts with
  | nil => intro m L; rfl
  | cons kv puts ih =>
    intro m L
    show (puts.foldl storeUpd (storeUpd m kv)) L = _
    rw [ih (storeUpd m kv) L]
    show _ = (List.foldl storeUpd (storeUpd (fun _ => none) kv) puts L).or (m L)
    rw [ih (storeUpd (fun _ => none) kv) L]
    cases hp : storeOf puts L with
    | some v => rfl
    | none =>
      show storeUpd m kv L = (storeUpd (fun _ => none) kv L).or (m L)
      unfold storeUpd
      by_cases hL : L = kv.1
      · rw [if_pos hL, if_pos hL]; rfl
      · rw [if_neg hL, if_neg hL]; rfl

lemma storeOf_cons (kv : String × Finset String) (puts : List (String × Finset String))
    (L : String) :
    storeOf (kv :: puts) L = (storeOf puts L).or (if L = kv.1 then some kv.2 else none) := by
  show List.foldl storeUpd (storeUpd (fun _ => none) kv) puts L = _
  rw [storeOf_shift]
  rfl

lemma storeOf_not_mem {puts : List (String × Finset String)} {L : String}
    (h : ∀ v, (L, v) ∉ puts) : storeOf puts L = none := by
  induction puts with
  | nil => rfl
  | cons kv puts ih =>
    rw [storeOf_cons]
    have h1 : storeOf puts L = none := ih (fun v hv => h v (List.mem_cons_of_mem _ hv))
    have h2 : ¬ L = kv.1 := by
      intro hc
      exact h kv.2 (by rw [hc]; exact List.mem_cons_self (kv.1, kv.2) puts)
    rw [h1, if_neg h2]
    rfl

lemma kvsLoop_keys : ∀ (l : List (String × String)) (p : String) (s : Finset String)
    (k : String), (∃ v, (k, v) ∈ kvsLoop l (some (p, s))) →
    k = p ∨ k ∈ l.map (fun r => r.1) := by
  intro l
  induction l with
  | nil =>
    intro p s k hk
    rcases hk with ⟨v, hv⟩
    by_cases hs : s = (∅ : Finset String)
    · rw [kvsLoop, if_neg (by simpa using hs)] at hv
      simp at hv
    · rw [kvsLoop, if_pos (by simpa using hs)] at hv
      rcases List.mem_singleton.mp hv with h
      exact Or.inl (by cases h; rfl)
  | cons r rest ih =>
    rcases r with ⟨label, node⟩
    intro p s k hk
    rcases hk with ⟨v, hv⟩
    by_cases hlp : label = p
    · rw [kvsLoop, if_pos hlp] at hv
      rcases ih p (insert node s) k ⟨v, hv⟩ with h | h
      · exact Or.inl h
      · exact Or.inr (List.mem_cons_of_mem _ h)
    · rw [kvsLoop, if_neg hlp] at hv
      rcases List.mem_append.mp hv with hv | hv
      · by_cases hs : s = (∅ : Finset String)
        · rw [if_neg (by simpa using hs)] at hv
          simp at hv
        · rw [if_pos (by simpa using hs)] at hv
          rcases List.mem_singleton.mp hv with h
          exact Or.inl (by cases h; rfl)
      · rcases ih label {node} k ⟨v, hv⟩ with h | h
        · exact Or.inr (by rw [h]; exact List.mem_cons_self _ _)
        · exact Or.inr (List.mem_cons_of_mem _ h)

lemma option_or_none (x : Option (Finset String)) : x.or none = x := by
  cases x <;> rfl

lemma kvsLoop_some_spec : ∀ (l : List (String × String)), l.Pairwise rowLe →
    ∀ (p : String) (s : Finset String), s.Nonempty → (∀ r ∈ l, strLe p r.1) →
    ∀ L, storeOf (kvsLoop l (some (p, s))) L =
      if L = p then some (s ∪ nodesUnder l p) else optNodes l L := by
  intro l
  induction l with
  | nil =>
    intro _ p s hs _ L
    rw [kvsLoop, if_pos (Finset.nonempty_iff_ne_empty.mp hs), storeOf_cons]
    by_cases hL : L = p
    · rw [if_pos hL, if_pos hL]
      have h0 : nodesUnder ([] : List (String × String)) p = ∅ := rfl
      rw [h0, Finset.union_empty]
      rfl
    · rw [if_neg hL, if_neg hL]
      have h0 : nodesUnder ([] : List (String × String)) L = ∅ := rfl
      unfold optNodes
      rw [h0]
      rfl
  | cons r rest ih =>
    rcases r with ⟨label, node⟩
    intro hpw p s hs hall L
    rcases List.pairwise_cons.mp hpw with ⟨hhead, htail⟩
    by_cases hlp : label = p
    · rw [kvsLoop, if_pos hlp]
      have hallrest : ∀ r2 ∈ rest, strLe p r2.1 := by
        intro r2 hr2
        have h1 : strLe label r2.1 := hhead r2 hr2
        rwa [hlp] at h1
      rw [ih htail p (insert node s) (Finset.insert_nonempty _ _) hallrest L]
      by_cases hL : L = p
      · rw [if_pos hL, if_pos hL]
        have hcons : nodesUnder ((label, node) :: rest) p =
            insert node (nodesUnder rest p) := by
          rw [nodesUnder_cons, if_pos hlp]
        rw [hcons, Finset.insert_union, Finset.union_insert]
      · rw [if_neg hL, if_neg hL]
        unfold optNodes
        have hcons : nodesUnder ((label, node) :: rest) L = nodesUnder rest L := by
          rw [nodesUnder_cons, if_neg (fun hc => hL (by rw [← hc, hlp]))]
        rw [hcons]
    · rw [kvsLoop, if_neg hlp, if_pos (Finset.nonempty_iff_ne_empty.mp hs),
        List.singleton_append, storeOf_cons,
        ih htail label {node} (Finset.singleton_nonempty _) (fun r2 hr2 => hhead r2 hr2) L]
      by_cases hL : L = p
      · have hLlab : ¬ L = label := fun hc => hlp (by rw [← hc, hL])
        rw [if_neg hLlab, if_pos hL, if_pos hL]
        have hempty : nodesUnder rest L = ∅ := by
          rw [Finset.eq_empty_iff_forall_not_mem]
          intro x hx
          have hmem := mem_nodesUnder.mp hx
          have h1 : strLe label L := hhead (L, x) hmem
          have h2 : strLe p label := hall (label, node) (List.mem_cons_self _ _)
          have h3 : strLe label p := by rw [← hL]; exact h1
          exact hlp (string_toList_inj (strLeChars_antisymm _ _ h3 h2))
        have hnone : optNodes rest L = none := by
          unfold optNodes
          rw [if_pos hempty]
        rw [hnone]
        have hempty2 : nodesUnder ((label, node) :: rest) p = ∅ := by
          rw [nodesUnder_cons, if_neg hlp, ← hL, hempty]
        rw [hempty2, Finset.union_empty]
        rfl
      · rw [if_neg hL, if_neg hL, option_or_none]
        by_cases hLl : L = label
        · rw [if_pos hLl]
          unfold optNodes
          have hcons : nodesUnder ((label, node) :: rest) L =
              insert node (nodesUnder rest L) := by
            rw [nodesUnder_cons, if_pos hLl.symm]
          rw [hcons]
          rw [if_neg (Finset.nonempty_iff_ne_empty.mp (Finset.insert_nonempty _ _))]
          rw [← Finset.insert_eq, hLl]
        · rw [if_neg hLl]
          unfold optNodes
          have hcons : nodesUnder ((label, node) :: rest) L = nodesUnder rest L := by
            rw [nodesUnder_cons, if_neg (fun hc => hLl hc.symm)]
          rw [hcons]

lemma kvsLoop_none_spec : ∀ (l : List (String × String)), l.Pairwise rowLe →
    ∀ L, storeOf (kvsLoop l none) L = optNodes l L := by
  intro l hpw L
  cases l with
  | nil =>
    have h0 : nodesUnder ([] : List (String × String)) L = ∅ := rfl
    unfold optNodes
    rw [h0]
    rfl
  | cons r rest =>
    rcases r with ⟨label, node⟩
    rcases List.pairwise_cons.mp hpw with ⟨hhead, htail⟩
    rw [kvsLoop,
      kvsLoop_some_spec rest htail label {node} (Finset.singleton_nonempty _)
        (fun r2 hr2 => hhead r2 hr2) L]
    by_cases hLl : L = label
    · rw [if_pos hLl]
      unfold optNodes
      have hcons : nodesUnder ((label, node) :: rest) L =
          insert node (nodesUnder rest L) := by
        rw [nodesUnder_cons, if_pos hLl.symm]
      rw [hcons, if_neg (Finset.nonempty_iff_ne_empty.mp (Finset.insert_nonempty _ _))]
      rw [← Finset.insert_eq, hLl]
    · rw [if_neg hLl]
      unfold optNodes
      have hcons : nodesUnder ((label, node) :: rest) L = nodesUnder rest L := by
        rw [nodesUnder_cons, if_neg (fun hc => hLl hc.symm)]
      rw [hcons]

/-- C5: after building the Label Index from the rows of the Relational
Store, a lookup of any label inserted with at least one node returns
exactly the (non-empty) set of nodes inserted under it; a label never
inserted is absent; and no lookup ever returns an empty set. -/
theorem create_kvs_from_sql_exact (rows : List (String × String)) (L : String) :
    ((∃ n, (L, n) ∈ rows) →
      kvs_map_lemma (create_kvs_from_sql rows) L = some (nodesUnder rows L) ∧
      (nodesUnder rows L).Nonempty) ∧
    ((∀ n, (L, n) ∉ rows) → kvs_map_lemma (create_kvs_from_sql rows) L = none) ∧
    (∀ s, kvs_map_lemma (create_kvs_from_sql rows) L = some s → s.Nonempty) := by
  have hsorted : (sortRows rows).Pairwise rowLe := List.sorted_insertionSort rowLe rows
  have hperm : (sortRows rows).Perm rows := List.perm_insertionSort rowLe rows
  have hget : kvs_map_lemma (create_kvs_from_sql rows) L = optNodes rows L := by
    show storeOf (kvsLoop (sortRows rows) none) L = _
    rw [kvsLoop_none_spec (sortRows rows) hsorted L]
    unfold optNodes
    rw [nodesUnder_perm hperm]
  refine ⟨?_, ?_, ?_⟩
  · rintro ⟨n, hn⟩
    have hne : (nodesUnder rows L).Nonempty := ⟨n, mem_nodesUnder.mpr hn⟩
    rw [hget]
    unfold optNodes
    rw [if_neg (Finset.nonempty_iff_ne_empty.mp hne)]
    exact ⟨rfl, hne⟩
  · intro hnone
    have hempty : nodesUnder rows L = ∅ := by
      rw [Finset.eq_empty_iff_forall_not_mem]
      intro x hx
      exact hnone x (mem_nodesUnder.mp hx)
    rw [hget]
    unfold optNodes
    rw [if_pos hempty]
  · intro s hs
    rw [hget] at hs
    unfold optNodes at hs
    by_cases hempty : nodesUnder rows L = ∅
    · rw [if_pos hempty] at hs
      cases hs
    · rw [if_neg hempty] at hs
      cases hs
      exact Finset.nonempty_iff_ne_empty.mpr hempty

/-- The rows of the spec's scenario: dog → N1, dog → N2, house → N3. -/
def rowsDH : List (String × String) := [("dog", "N1"), ("dog", "N2"), ("house", "N3")]

/-- Witness for C5 at a concrete input. -/
theorem create_kvs_from_sql_exact_witness :
    kvs_map_lemma (create_kvs_from_sql rowsDH) "dog" = some (nodesUnder rowsDH "dog") ∧
    (nodesUnder rowsDH "dog").Nonempty :=
  (create_kvs_from_sql_exact rowsDH "dog").1 ⟨"N1", by decide⟩

/-! ### Batched index building: `kvs_insert_entryset`, `index_part`,
`create_idx_from_sql`

`YagoDict` holds two `WriteBatch`es (`kvs_batch`, `idx_batch`, never
cleared after a write — rewriting a batch replays its puts), two stores
(`kvs`, `idx`, modelled as the list of puts applied so far) and one
shared put counter.  The flush interval is `100000` in the source; it
is a parameter `B` here, matching the spec's statement that the batch
size is tunable.  `index_part` reproduces the source faithfully,
including the flush of the *kvs* batch into the *idx* store
(`self.idx.Write(self.kvs_batch, sync=True)` on line 375 of
`tools/yago.py`). -/

structure BState where
  kvsBatch : List (String × Finset String)
  idxBatch : List (String × Finset String)
  kvs : List (String × Finset String)
  idx : List (String × Finset String)
  counter : Nat

def initBState : BState := ⟨[], [], [], [], 0⟩

/-- Embedding of `YagoDict.kvs_insert_entryset`: put into the kvs
batch, bump the counter, flush the kvs batch to the kvs store at every
`B`-th record. -/
def kvs_insert_entryset (B : Nat) (st : BState) (label : String) (ns : Finset String) :
    BState :=
  let kb := st.kvsBatch ++ [(label, ns)]
  let c := st.counter + 1
  if c % B = 0 then
    { kvsBatch := kb, idxBatch := st.idxBatch, kvs := st.kvs ++ kb, idx := st.idx,
      counter := c }
  else
    { kvsBatch := kb, idxBatch := st.idxBatch, kvs := st.kvs, idx := st.idx, counter := c }

/-- Embedding of `YagoDict.index_part`: put into the idx batch, bump
the shared counter, and — exactly as the source does — flush the *kvs*
batch into the idx store at every `B`-th record. -/
def index_part (B : Nat) (st : BState) (part : String) (ns : Finset String) : BState :=
  let ib := st.idxBatch ++ [(part, ns)]
  let c := st.counter + 1
  if c % B = 0 then
    { kvsBatch := st.kvsBatch, idxBatch := ib, kvs := st.kvs,
      idx := st.idx ++ st.kvsBatch, counter := c }
  else
    { kvsBatch := st.kvsBatch, idxBatch := ib, kvs := st.kvs, idx := st.idx, counter := c }

/-- The batched run of `create_kvs_from_sql`: feed every grouped label
put through `kvs_insert_entryset`, then the final
`self.kvs.Write(self.kvs_batch, sync=True)`. -/
def create_kvs_batched (B : Nat) (rows : List (String × String)) (st : BState) : BState :=
  let st1 := (kvsLoop (sortRows rows) none).foldl
    (fun st kv => kvs_insert_entryset B st kv.1 kv.2) st
  { kvsBatch := st1.kvsBatch, idxBatch := st1.idxBatch, kvs := st1.kvs ++ st1.kvsBatch,
    idx := st1.idx, counter := st1.counter }

/-- `INSERT INTO yago_cpnd` with its `UNIQUE (part, node)` constraint:
duplicate rows are dropped, insertion order kept. -/
def insertPartRow (acc : List (String × String)) (pr : String × String) :
    List (String × String) :=
  if pr ∈ acc then acc else acc ++ [pr]

/-- The `yago_cpnd` table built by the first loop of
`create_idx_from_sql`: tokenize every label of the (label-ordered) row
list and insert each (part, node) pair, deduplicated. -/
def partTable (rows : List (String × String)) : List (String × String) :=
  ((sortRows rows).flatMap
    (fun r => (labelParts r.1).map (fun p => (p, r.2)))).foldl insertPartRow []

/-- The batched run of the second loop of `create_idx_from_sql`: feed
every grouped part put through `index_part`, then the final
`self.idx.Write(self.idx_batch, sync=True)`. -/
def create_idx_batched (B : Nat) (rows : List (String × String)) (st : BState) : BState :=
  let st2 := (kvsLoop (sortRows (partTable rows)) none).foldl
    (fun st kv => index_part B st kv.1 kv.2) st
  { kvsBatch := st2.kvsBatch, idxBatch := st2.idxBatch, kvs := st2.kvs,
    idx := st2.idx ++ st2.idxBatch, counter := st2.counter }

/-- The full build sequence of the indexer: Label Index first, then
Part Index, sharing batches and counter as the `YagoDict` object
does. -/
def buildBatched (B : Nat) (rows : List (String × String)) : BState :=
  create_idx_batched B rows (create_kvs_batched B rows initBState)

/-- The unbatched Part Index build of the same rows: the grouped part
puts applied in one go, with no intermediate flushes. -/
def create_idx_unbatched (rows : List (String × String)) : List (String × Finset String) :=
  kvsLoop (sortRows (partTable rows)) none

/-- Rows whose first label is a two-word label: its parts are ab and
cd, and the full label `ab cd` is never a Part Index key. -/
def rowsTwoWord : List (String × String) := [("ab cd", "n1"), ("ef", "n2")]

/-- C7: the claim says batching is purely a performance measure — for
every batch size the built indexes answer every get like an unbatched
build.  The code's `index_part` flushes the *kvs* batch into the idx
store (`self.idx.Write(self.kvs_batch, ...)`), so whenever a flush
fires during part indexing, Label Index entries leak into the Part
Index: with batch interval 1 (the source's fixed interval 100000 leaks
identically once at least 100000 records are counted) the two-word
label `ab cd` becomes a Part Index key in the batched build while the
unbatched build answers absent. -/
theorem index_part_batched_leaks :
    storeOf (buildBatched 1 rowsTwoWord).idx "ab cd" = some {"n1"} ∧
    storeOf (create_idx_unbatched rowsTwoWord) "ab cd" = none := by
  refine ⟨by decide, by decide⟩
